import Mathlib

/-!
Verification of the learnmate repository's derived-state calculations and
state-machine logic: rank derivation, badge awarding, accuracy calculation,
quiz-result application, quiz shuffling, streaming-chat reveal, live-audio
scheduling, chat error handling, and image-history persistence retry.

Each definition is a shallow embedding of the corresponding TypeScript
source. JavaScript numbers are modelled as `Int` (integer-valued data) or
`ℚ` (clock times, score ratios); `Math.round` is modelled exactly as
round-half-up on rationals.
-/

namespace LearnMate

/-! ## Data model (src/types.ts) -/

/-- Rank tiers, from src/types.ts: `'Bronze' | 'Silver' | 'Gold' | 'Emerald' | 'Diamond'`. -/
inductive Rank where
  | Bronze | Silver | Gold | Emerald | Diamond
deriving DecidableEq, Repr

/-- Badge names, from src/types.ts: `'Math Star' | 'Grammar Pro' | 'Quiz Champ' | 'Knowledge Seeker'`. -/
inductive BadgeName where
  | mathStar | grammarPro | quizChamp | knowledgeSeeker
deriving DecidableEq, Repr

/-- Subjects, from the `Subject` enum in src/types.ts. -/
inductive Subject where
  | Math | Physics | Chemistry | Biology | History | Geography
  | ComputerScience | English | Custom
deriving DecidableEq, Repr

/-- QuizResult record from src/types.ts (`subject`, `score`, `total`, `date`). -/
structure QuizResult where
  subject : Subject
  score : Int
  total : Int
  date : Int
deriving DecidableEq, Repr

/-- One `{date, points}` snapshot of the `progress` list in the `User` record. -/
structure ProgressPoint where
  date : Int
  points : Int
deriving DecidableEq, Repr

/-- User record from src/types.ts. -/
structure User where
  id : String
  name : String
  email : String
  profilePicture : Option String
  className : Option String
  rank : Rank
  totalPoints : Int
  badges : List BadgeName
  progress : List ProgressPoint
deriving Repr

/-! ## Constants (src/constants.ts) -/

/-- `POINTS_PER_CORRECT_ANSWER = 100` from src/constants.ts line 13. -/
def POINTS_PER_CORRECT_ANSWER : Int := 100

/-- The fields of `RankInfo` relevant to rank logic (src/constants.ts);
the presentation-only fields (colors, icon) are omitted. -/
structure RankInfo where
  minPoints : Int
  nextLevelPoints : Option Int

/-- The `RANKS` table from src/constants.ts lines 72-78. -/
def RANKS : Rank → RankInfo
  | Rank.Bronze => { minPoints := 0, nextLevelPoints := some 500 }
  | Rank.Silver => { minPoints := 500, nextLevelPoints := some 1500 }
  | Rank.Gold => { minPoints := 1500, nextLevelPoints := some 3000 }
  | Rank.Emerald => { minPoints := 3000, nextLevelPoints := some 5000 }
  | Rank.Diamond => { minPoints := 5000, nextLevelPoints := none }

/-! ## src/utils/profileUtils.ts -/

/-- `getRank` from src/utils/profileUtils.ts lines 4-10: descending chain of
`points >= RANKS.<tier>.minPoints` threshold tests. -/
def getRank (points : Int) : Rank :=
  if points ≥ (RANKS Rank.Diamond).minPoints then Rank.Diamond
  else if points ≥ (RANKS Rank.Emerald).minPoints then Rank.Emerald
  else if points ≥ (RANKS Rank.Gold).minPoints then Rank.Gold
  else if points ≥ (RANKS Rank.Silver).minPoints then Rank.Silver
  else Rank.Bronze

/-- The tier order Bronze < Silver < Gold < Emerald < Diamond, as a numeric
level (used to state monotonicity of `getRank`). -/
def rankLevel : Rank → Nat
  | Rank.Bronze => 0
  | Rank.Silver => 1
  | Rank.Gold => 2
  | Rank.Emerald => 3
  | Rank.Diamond => 4

/-- The score-ratio test `(score / total) >= 0.9` used by `getNewBadges`.
The JavaScript float division is modelled as exact rational division
(division by zero yields 0 in `ℚ`, a deviation only for the degenerate
input `total = 0`, `score > 0`, where JavaScript compares `Infinity`). -/
def scoreAtLeast90 (r : QuizResult) : Prop :=
  ((r.score : ℚ) / (r.total : ℚ)) ≥ 9 / 10

instance (r : QuizResult) : Decidable (scoreAtLeast90 r) := by
  unfold scoreAtLeast90; infer_instance

/-- `Set.add` of a JavaScript `Set` over badge names: insertion-ordered,
deduplicating append. -/
def insertBadge (s : List BadgeName) (b : BadgeName) : List BadgeName :=
  if b ∈ s then s else s ++ [b]

/-- `getNewBadges` from src/utils/profileUtils.ts lines 12-42. The JavaScript
`Set` initialised from `currentBadges` is modelled as an insertion-ordered
deduplicating fold; `Array.from` preserves that insertion order. -/
def getNewBadges (currentBadges : List BadgeName) (latestResult : QuizResult)
    (fullHistory : List QuizResult) : List BadgeName :=
  let earnedBadges := currentBadges.foldl insertBadge []
  let fullHistoryWithLatest := fullHistory ++ [latestResult]
  let e1 := if latestResult.subject = Subject.Math ∧ scoreAtLeast90 latestResult then
      insertBadge earnedBadges BadgeName.mathStar else earnedBadges
  let e2 := if latestResult.subject = Subject.English ∧ scoreAtLeast90 latestResult then
      insertBadge e1 BadgeName.grammarPro else e1
  let e3 := if fullHistoryWithLatest.length ≥ 10 then
      insertBadge e2 BadgeName.quizChamp else e2
  let totalCorrectAnswers := fullHistoryWithLatest.foldl (fun sum r => sum + r.score) (0 : Int)
  let e4 := if totalCorrectAnswers ≥ 100 then
      insertBadge e3 BadgeName.knowledgeSeeker else e3
  e4

/-- `Math.round` on a rational: round half toward positive infinity. -/
def jsRound (x : ℚ) : Int := ⌊x + 1 / 2⌋

/-- `quizHistory.reduce((sum, r) => sum + r.score, 0)`. -/
def totalCorrectOf (h : List QuizResult) : Int :=
  h.foldl (fun sum r => sum + r.score) 0

/-- `quizHistory.reduce((sum, r) => sum + r.total, 0)`. -/
def totalQuestionsOf (h : List QuizResult) : Int :=
  h.foldl (fun sum r => sum + r.total) 0

/-- `calculateAccuracy` from src/utils/profileUtils.ts lines 45-50. -/
def calculateAccuracy (quizHistory : List QuizResult) : Int :=
  if quizHistory.length = 0 then 0
  else if totalQuestionsOf quizHistory > 0 then
    jsRound (((totalCorrectOf quizHistory : ℚ) / (totalQuestionsOf quizHistory : ℚ)) * 100)
  else 0

/-! ## `addQuizResult` (App component, src/unnamed/part_000x lines 85-105) -/

/-- The state update applied by `addQuizResult` to the previous user:
`pointsEarned = result.score * 25`, new rank derived from the new total,
badges recomputed, and a progress snapshot appended (`now` models
`Date.now()`). -/
def addQuizResult (prevUser : User) (result : QuizResult)
    (quizHistory : List QuizResult) (now : Int) : User :=
  let pointsEarned := result.score * 25
  let newTotalPoints := prevUser.totalPoints + pointsEarned
  let newRank := getRank newTotalPoints
  let fullHistory := quizHistory ++ [result]
  let newBadges := getNewBadges prevUser.badges result fullHistory
  { prevUser with
      totalPoints := newTotalPoints
      rank := newRank
      badges := newBadges
      progress := prevUser.progress ++ [{ date := now, points := newTotalPoints }] }

/-! ## Image-history persistence retry (src ImageGenerator component) -/

/-- ImageGenerationResult record from src/types.ts. -/
structure ImageGenerationResult where
  id : String
  prompt : String
  aspectRatio : String
  numImages : Int
  images : List String
  createdAt : Int
deriving DecidableEq, Repr

/-- Outcome of one `localStorage.setItem` attempt, as distinguished by the
catch handler of `saveHistoryWithRetry`: success, a quota-exceeded
`DOMException`, or any other error. -/
inductive SaveOutcome where
  | success | quotaExceeded | otherError
deriving DecidableEq, Repr

/-- `saveHistoryWithRetry` from the ImageGenerator component, modelled as the
sequence of `data` values it attempts to store: on a quota-exceeded error
with non-empty data it recurses on `data.slice(0, -1)` (drop the last,
i.e. oldest, entry of the newest-first list); on success or any other error
it stops. The storage environment is the oracle `attempt`. -/
def saveAttempts (attempt : List ImageGenerationResult → SaveOutcome)
    (data : List ImageGenerationResult) : List (List ImageGenerationResult) :=
  if h : attempt data = SaveOutcome.quotaExceeded ∧ data ≠ [] then
    data :: saveAttempts attempt data.dropLast
  else [data]
termination_by data.length
decreasing_by
  simp only [List.length_dropLast]
  have := List.length_pos.mpr h.2
  omega

/-! ## Chat messages and the streaming exchange (src/components/Chat.tsx) -/

/-- Message roles from src/types.ts (`'user' | 'model'`). -/
inductive ChatRole where
  | user | model
deriving DecidableEq, Repr

/-- ChatMessage record (the fields the streaming logic touches): role, text
content (as a character list), the streaming flag, and citation sources. -/
structure ChatMessage where
  role : ChatRole
  content : List Char
  isStreaming : Bool
  sources : Option (List String)
deriving DecidableEq, Repr

/-- The chat view state touched by `handleSendMessage`: the active session's
message list, the error banner, and the loading flag. -/
structure ChatState where
  messages : List ChatMessage
  error : Option String
  isLoading : Bool
deriving DecidableEq, Repr

/-- The user message appended by step 1 of `handleSendMessage`. -/
def userMessage (text : List Char) : ChatMessage :=
  { role := ChatRole.user, content := text, isStreaming := false, sources := none }

/-- The placeholder bot message appended by step 2 of `handleSendMessage`:
`{ role: 'model', content: '', isStreaming: true }`. -/
def placeholderBotMessage : ChatMessage :=
  { role := ChatRole.model, content := [], isStreaming := true, sources := none }

/-- Steps 1-2 of `handleSendMessage`: clear the error, set loading, append the
user message, then append the streaming placeholder bot message. -/
def sendSetup (s : ChatState) (text : List Char) : ChatState :=
  { s with
      messages := s.messages ++ [userMessage text] ++ [placeholderBotMessage]
      isLoading := true
      error := none }

/-- The `updateSession` body inside `animateStream`: replace the content of
the last message provided it is a streaming model message. -/
def updateLastStreaming (msgs : List ChatMessage) (nextContent : List Char) : List ChatMessage :=
  match msgs.getLast? with
  | none => msgs
  | some lastMsg =>
    if lastMsg.role = ChatRole.model ∧ lastMsg.isStreaming then
      msgs.dropLast ++ [{ lastMsg with content := nextContent }]
    else msgs

/-- The `catch` handler of `handleSendMessage`: surface the error message,
stop loading, and drop every message still marked streaming. -/
def handleSendError (s : ChatState) (errMsg : String) : ChatState :=
  { s with
      error := some errMsg
      isLoading := false
      messages := s.messages.filter fun m => !m.isStreaming }

/-- One failed exchange end to end: setup (user message + placeholder), an
arbitrary number of animation-frame content updates on the placeholder, then
the catch handler when `askTutor` rejects. -/
def failedExchange (s : ChatState) (text : List Char) (contents : List (List Char))
    (errMsg : String) : ChatState :=
  let s1 := sendSetup s text
  let msgs2 := contents.foldl updateLastStreaming s1.messages
  handleSendError { s1 with messages := msgs2 } errMsg

/-! ## Streaming reveal loop (`animateStream` in src/components/Chat.tsx) -/

/-- Per-frame reveal size: `Math.max(1, Math.round(delta / 1.5))`.
`delta / 1.5 = 2*delta/3` has fractional part 0, 1/3 or 2/3 — never a
rounding tie — so `Math.round` equals exact round-half-up:
`⌊(4*delta + 3) / 6⌋`. -/
def chunkSizeOf (delta : Nat) : Nat := max 1 ((4 * delta + 3) / 6)

/-- State of one streaming exchange: the closure variables `streamText`
(network buffer), `displayedText`, `isComplete`, plus the session's message
list (whose last entry is the placeholder bot message being revealed). -/
structure StreamLoopState where
  streamText : List Char
  displayedText : List Char
  isComplete : Bool
  messages : List ChatMessage
deriving DecidableEq, Repr

/-- The finalization `updateSession` of `animateStream`: mark the last
message non-streaming and attach the citation sources. (The message list is
never empty at this point in the modelled exchange — the placeholder is
appended before the loop starts.) -/
def finalizeMessages (msgs : List ChatMessage) (finalSources : Option (List String)) :
    List ChatMessage :=
  match msgs.getLast? with
  | none => msgs
  | some lastMsg => msgs.dropLast ++ [{ lastMsg with isStreaming := false, sources := finalSources }]

/-- The reveal half of one `animateStream` frame: if the displayed text lags
the buffer, advance it by `chunkSizeOf` and write it into the streaming
message. -/
def revealStep (s : StreamLoopState) : StreamLoopState :=
  if s.displayedText.length < s.streamText.length then
    let delta := s.streamText.length - s.displayedText.length
    let nextContent := s.streamText.take (s.displayedText.length + chunkSizeOf delta)
    { s with
        displayedText := nextContent
        messages := updateLastStreaming s.messages nextContent }
  else s

/-- One full `animateStream` frame: reveal, then either continue (not
complete, or buffer not drained) or finalize the message. -/
def frameStep (finalSources : Option (List String)) (s : StreamLoopState) : StreamLoopState :=
  let s1 := revealStep s
  if ¬s1.isComplete ∨ s1.displayedText.length < s1.streamText.length then s1
  else { s1 with messages := finalizeMessages s1.messages finalSources }

/-- External events driving one exchange: a network chunk appended to the
buffer (`onChunk` callback), one animation frame, or the `finally` block
marking the stream complete. -/
inductive StreamEvent where
  | recv (chunk : List Char)
  | frame
  | complete
deriving DecidableEq, Repr

/-- Applying one event to the exchange state. -/
def streamEventStep (finalSources : Option (List String)) (s : StreamLoopState) :
    StreamEvent → StreamLoopState
  | StreamEvent.recv chunk => { s with streamText := s.streamText ++ chunk }
  | StreamEvent.frame => frameStep finalSources s
  | StreamEvent.complete => { s with isComplete := true }

/-- Run a sequence of events. -/
def runStream (finalSources : Option (List String)) (s : StreamLoopState)
    (es : List StreamEvent) : StreamLoopState :=
  es.foldl (streamEventStep finalSources) s

/-- The state at the start of an exchange: empty buffers, not complete, and
the placeholder appended after any prior messages. -/
def initialStreamState (priorMessages : List ChatMessage) : StreamLoopState :=
  { streamText := []
    displayedText := []
    isComplete := false
    messages := priorMessages ++ [placeholderBotMessage] }

/-- Whether an event is the completion signal. -/
def isCompleteEvent : StreamEvent → Bool
  | StreamEvent.complete => true
  | _ => false

/-- Well-formed traces of one exchange: chunks only arrive before the remote
call has signalled completion (the `onChunk` callback fires while `askTutor`
is still pending; `isComplete` is set in its `finally`). -/
def wfTrace : Bool → List StreamEvent → Bool
  | _, [] => true
  | done, StreamEvent.recv _ :: es => !done && wfTrace done es
  | done, StreamEvent.frame :: es => wfTrace done es
  | _, StreamEvent.complete :: es => wfTrace true es

/-- Invariant of the exchange: the displayed text is a prefix of the buffer,
and the last message is the model message under reveal — its content is the
displayed text, and it is either still streaming or already finalized with
the buffer fully drained. -/
def StreamInv (s : StreamLoopState) : Prop :=
  s.displayedText <+: s.streamText ∧
  ∃ m, s.messages.getLast? = some m ∧ m.role = ChatRole.model ∧
    m.content = s.displayedText ∧
    (m.isStreaming = true ∨ (s.isComplete = true ∧ s.displayedText = s.streamText))

/-- Terminal state of the exchange: buffer drained and the last message
finalized — full text, non-streaming, sources attached. -/
def StreamDone (finalSources : Option (List String)) (s : StreamLoopState) : Prop :=
  s.displayedText = s.streamText ∧ s.isComplete = true ∧
  ∃ m, s.messages.getLast? = some m ∧ m.role = ChatRole.model ∧
    m.isStreaming = false ∧ m.content = s.streamText ∧ m.sources = finalSources

/-! ## Live-audio scheduling (`onmessage` audio branch, src/components/Chat.tsx) -/

/-- The audio scheduling of the live session's `onmessage`: for each decoded
buffer, `(t, d)` is the output context's clock when the buffer is scheduled
and its duration; the code sets
`nextStartTime = max(nextStartTime, currentTime)`, starts the source there,
then advances the cursor by the duration. Returns (startTime, duration)
pairs. Clock values and durations are modelled as exact rationals. -/
def scheduleSched (cursor : ℚ) : List (ℚ × ℚ) → List (ℚ × ℚ)
  | [] => []
  | (t, d) :: rest =>
    let s := max cursor t
    (s, d) :: scheduleSched (s + d) rest

/-- The schedule asserted by the claim (stated from the spec's words, for
comparison with `scheduleSched`): the k-th buffer starts at `base` plus the
cumulative durations of the buffers before it, regardless of arrival times. -/
def claimedSched (base : ℚ) : List (ℚ × ℚ) → List (ℚ × ℚ)
  | [] => []
  | (_, d) :: rest => (base, d) :: claimedSched (base + d) rest

/-- Arrival timeliness from a given cursor: every buffer is scheduled no
later than the end of the audio scheduled before it (the clock never
overtakes the cursor). -/
def timelyFrom (base : ℚ) : List (ℚ × ℚ) → Bool
  | [] => true
  | (t, d) :: rest => decide (t ≤ base) && timelyFrom (base + d) rest

/-! ## Quiz shuffling (`shuffleArray` in src/components/Quiz.tsx) -/

/-- QuizQuestion record from src/types.ts. -/
structure QuizQuestion where
  question : String
  options : List String
  correctAnswer : String
  explanation : String
deriving DecidableEq, Repr

/-- Swap the entries at positions `i` and `j`
(`[arr[i], arr[j]] = [arr[j], arr[i]]`); out-of-range indices leave the list
unchanged (they cannot occur for the in-range random draws of the source). -/
def swapL {α : Type*} (l : List α) (i j : Nat) : List α :=
  match l[i]?, l[j]? with
  | some a, some b => (l.set i b).set j a
  | _, _ => l

/-- The Fisher-Yates loop of `shuffleArray`: `i` counts down from
`length - 1` to `1`; at each index the next random draw `j` (the head of
`cs`, with `j ≤ i` for draws produced by `Math.floor(Math.random()*(i+1))`)
selects the element swapped into position `i`. -/
def fyLoop {α : Type*} : List α → Nat → List Nat → List α
  | arr, _, [] => arr
  | arr, 0, _ :: _ => arr
  | arr, i + 1, j :: cs => fyLoop (swapL arr (i + 1) j) i cs

/-- `shuffleArray` from src/components/Quiz.tsx lines 15-22: copy the input
(`[...array]` — the model is pure, so the copy is implicit) and run the
Fisher-Yates loop from index `length - 1`, consuming the random draws `cs`. -/
def shuffleArray {α : Type*} (l : List α) (cs : List Nat) : List α :=
  fyLoop l (l.length - 1) cs

/-- All possible lists of random draws for a run of the loop starting at
index `i`: the draw for index `k` ranges over `0..k`, exactly the values of
`Math.floor(Math.random() * (k + 1))`. -/
def choiceSpace : Nat → Finset (List Nat)
  | 0 => {[]}
  | i + 1 => (Finset.range (i + 2)).biUnion fun j => (choiceSpace i).image fun cs => j :: cs


/-! ## Theorems -/

theorem mem_insertBadge_of_mem {s : List BadgeName} {b c : BadgeName} (h : b ∈ s) :
    b ∈ insertBadge s c := by
  unfold insertBadge
  split
  · exact h
  · exact List.mem_append_left _ h

theorem self_mem_insertBadge (s : List BadgeName) (b : BadgeName) : b ∈ insertBadge s b := by
  unfold insertBadge
  split
  · assumption
  · exact List.mem_append_right _ (by simp)

theorem mem_foldl_insertBadge {acc : List BadgeName} {b : BadgeName} (l : List BadgeName)
    (h : b ∈ acc) : b ∈ l.foldl insertBadge acc := by
  induction l generalizing acc with
  | nil => exact h
  | cons x xs ih => exact ih (mem_insertBadge_of_mem h)

theorem mem_foldl_insertBadge_self {b : BadgeName} (l : List BadgeName) (acc : List BadgeName)
    (h : b ∈ l) : b ∈ l.foldl insertBadge acc := by
  induction l generalizing acc with
  | nil => cases h
  | cons x xs ih =>
    rcases List.mem_cons.mp h with rfl | h'
    · exact mem_foldl_insertBadge xs (self_mem_insertBadge acc b)
    · exact ih (insertBadge acc x) h'

/-- C2: badge awarding is monotonic — `getNewBadges` always returns a superset
of the currently earned badges, for every latest result and history. -/
theorem getNewBadges_superset :
    ∀ (currentBadges : List BadgeName) (latestResult : QuizResult)
      (fullHistory : List QuizResult) (b : BadgeName),
      b ∈ currentBadges → b ∈ getNewBadges currentBadges latestResult fullHistory := by
  intro current latest hist b hb
  simp only [getNewBadges]
  split_ifs <;>
    (repeat apply mem_insertBadge_of_mem) <;>
    exact mem_foldl_insertBadge_self current [] hb

theorem getNewBadges_superset_witness :
    BadgeName.mathStar ∈ [BadgeName.mathStar] ∧
    BadgeName.mathStar ∈ getNewBadges [BadgeName.mathStar] ⟨Subject.English, 3, 10, 0⟩ [] :=
  ⟨by decide, getNewBadges_superset [BadgeName.mathStar] ⟨Subject.English, 3, 10, 0⟩ [] BadgeName.mathStar (by decide)⟩

/-- C1: `getRank` is a step function of total points with the documented
thresholds (each threshold the minimum of its tier), and is monotone in the
order Bronze < Silver < Gold < Emerald < Diamond. -/
theorem getRank_spec :
    getRank 0 = Rank.Bronze ∧ getRank 500 = Rank.Silver ∧ getRank 1500 = Rank.Gold ∧
    getRank 3000 = Rank.Emerald ∧ getRank 5000 = Rank.Diamond ∧
    (∀ r : Rank, getRank (RANKS r).minPoints = r) ∧
    (∀ p1 p2 : Int, p1 ≤ p2 → rankLevel (getRank p1) ≤ rankLevel (getRank p2)) := by
  refine ⟨by decide, by decide, by decide, by decide, by decide, fun r => by cases r <;> decide, ?_⟩
  intro p1 p2 h
  simp only [getRank, RANKS]
  split_ifs <;> simp_all [rankLevel] <;> omega

theorem getRank_spec_witness :
    (0 : Int) ≤ 5000 ∧ rankLevel (getRank 0) ≤ rankLevel (getRank 5000) :=
  ⟨by decide, getRank_spec.2.2.2.2.2.2 0 5000 (by decide)⟩

/-- C5: `calculateAccuracy` returns 0 when both totals are 0 (no division by
zero, including the empty history), 70 for 7 correct out of 10, and in
general the rounded percentage of total correct over total questions. -/
theorem calculateAccuracy_spec :
    calculateAccuracy [] = 0 ∧
    (∀ h : List QuizResult, totalCorrectOf h = 0 → totalQuestionsOf h = 0 →
      calculateAccuracy h = 0) ∧
    (∀ h : List QuizResult, totalCorrectOf h = 7 → totalQuestionsOf h = 10 →
      calculateAccuracy h = 70) ∧
    (∀ h : List QuizResult, totalQuestionsOf h > 0 →
      calculateAccuracy h =
        jsRound (((totalCorrectOf h : ℚ) / (totalQuestionsOf h : ℚ)) * 100)) := by
  refine ⟨rfl, ?_, ?_, ?_⟩
  · intro h hc hq
    unfold calculateAccuracy
    split_ifs with h1 h2
    · rfl
    · omega
    · rfl
  · intro h hc hq
    have hne : h.length ≠ 0 := by
      intro hlen
      rw [List.length_eq_zero.mp hlen] at hq
      simp [totalQuestionsOf] at hq
    unfold calculateAccuracy
    rw [if_neg hne, if_pos (by rw [hq]; norm_num), hc, hq]
    unfold jsRound
    rw [show (((7 : Int) : ℚ) / ((10 : Int) : ℚ) * 100 + 1 / 2) = 141 / 2 by norm_num]
    rw [Int.floor_eq_iff]
    norm_num
  · intro h hq
    have hne : h.length ≠ 0 := by
      intro hlen
      rw [List.length_eq_zero.mp hlen] at hq
      simp [totalQuestionsOf] at hq
    unfold calculateAccuracy
    rw [if_neg hne, if_pos hq]

theorem calculateAccuracy_spec_witness :
    totalCorrectOf [⟨Subject.Math, 7, 10, 0⟩] = 7 ∧
    totalQuestionsOf [⟨Subject.Math, 7, 10, 0⟩] = 10 ∧
    calculateAccuracy [⟨Subject.Math, 7, 10, 0⟩] = 70 :=
  ⟨by decide, by decide, calculateAccuracy_spec.2.2.1 [⟨Subject.Math, 7, 10, 0⟩] (by decide) (by decide)⟩

/-- C6: for a non-negative score, `addQuizResult` never decreases
`totalPoints`, and afterwards the stored `rank` equals `getRank` of the new
`totalPoints`. -/
theorem addQuizResult_spec :
    ∀ (u : User) (r : QuizResult) (hist : List QuizResult) (now : Int),
      0 ≤ r.score →
      u.totalPoints ≤ (addQuizResult u r hist now).totalPoints ∧
      (addQuizResult u r hist now).rank = getRank ((addQuizResult u r hist now).totalPoints) := by
  intro u r hist now hs
  refine ⟨?_, rfl⟩
  show u.totalPoints ≤ u.totalPoints + r.score * 25
  omega

theorem addQuizResult_spec_witness :
    (0 : Int) ≤ (2 : Int) ∧
    ({ id := "u", name := "n", email := "e", profilePicture := none, className := none,
       rank := Rank.Bronze, totalPoints := 0, badges := [], progress := [] } : User).totalPoints ≤
      (addQuizResult
        { id := "u", name := "n", email := "e", profilePicture := none, className := none,
          rank := Rank.Bronze, totalPoints := 0, badges := [], progress := [] }
        ⟨Subject.Math, 2, 5, 0⟩ [] 0).totalPoints ∧
    (addQuizResult
        { id := "u", name := "n", email := "e", profilePicture := none, className := none,
          rank := Rank.Bronze, totalPoints := 0, badges := [], progress := [] }
        ⟨Subject.Math, 2, 5, 0⟩ [] 0).rank =
      getRank ((addQuizResult
        { id := "u", name := "n", email := "e", profilePicture := none, className := none,
          rank := Rank.Bronze, totalPoints := 0, badges := [], progress := [] }
        ⟨Subject.Math, 2, 5, 0⟩ [] 0).totalPoints) :=
  ⟨by decide, addQuizResult_spec _ _ _ _ (by decide)⟩

/-- C10: `addQuizResult` awards exactly 25 points per unit of score
(`score * 25`), while the constants module declares
`POINTS_PER_CORRECT_ANSWER = 100`. -/
theorem addQuizResult_points_constant :
    POINTS_PER_CORRECT_ANSWER = 100 ∧
    ∀ (u : User) (r : QuizResult) (hist : List QuizResult) (now : Int),
      (addQuizResult u r hist now).totalPoints = u.totalPoints + r.score * 25 :=
  ⟨rfl, fun _ _ _ _ => rfl⟩

theorem saveAttempts_head (attempt : List ImageGenerationResult → SaveOutcome)
    (data : List ImageGenerationResult) : (saveAttempts attempt data).head? = some data := by
  rw [saveAttempts]
  split <;> simp

theorem saveAttempts_chain (attempt : List ImageGenerationResult → SaveOutcome)
    (data : List ImageGenerationResult) :
    List.Chain' (fun a b => attempt a = SaveOutcome.quotaExceeded ∧ a ≠ [] ∧ b = a.dropLast)
      (saveAttempts attempt data) := by
  rw [saveAttempts]
  split
  · next h =>
    refine List.chain'_cons'.mpr ⟨?_, saveAttempts_chain attempt data.dropLast⟩
    intro b hb
    rw [saveAttempts_head] at hb
    cases hb
    exact ⟨h.1, h.2, rfl⟩
  · exact List.chain'_singleton _
termination_by data.length
decreasing_by
  rename_i h
  simp only [List.length_dropLast]
  have := List.length_pos.mpr h.2
  omega

theorem saveAttempts_len (attempt : List ImageGenerationResult → SaveOutcome)
    (data : List ImageGenerationResult) :
    (saveAttempts attempt data).length ≤ data.length + 1 := by
  rw [saveAttempts]
  split
  · next h =>
    have ih := saveAttempts_len attempt data.dropLast
    have := List.length_pos.mpr h.2
    simp only [List.length_cons, List.length_dropLast] at ih ⊢
    omega
  · simp
termination_by data.length
decreasing_by
  rename_i h
  simp only [List.length_dropLast]
  have := List.length_pos.mpr h.2
  omega

/-- C9: on a quota-exceeded storage error, `saveHistoryWithRetry` evicts
exactly the last (oldest) entry of the newest-first history and retries,
once per eviction, making at most `length + 1` attempts in total; a
non-quota outcome is never retried. -/
theorem saveHistoryWithRetry_spec :
    ∀ (attempt : List ImageGenerationResult → SaveOutcome) (data : List ImageGenerationResult),
      (saveAttempts attempt data).head? = some data ∧
      List.Chain' (fun a b => attempt a = SaveOutcome.quotaExceeded ∧ a ≠ [] ∧ b = a.dropLast)
        (saveAttempts attempt data) ∧
      (saveAttempts attempt data).length ≤ data.length + 1 ∧
      (attempt data ≠ SaveOutcome.quotaExceeded → saveAttempts attempt data = [data]) := by
  intro attempt data
  refine ⟨saveAttempts_head attempt data, saveAttempts_chain attempt data,
    saveAttempts_len attempt data, fun hne => ?_⟩
  rw [saveAttempts, dif_neg fun hc => hne hc.1]

theorem saveHistoryWithRetry_spec_witness :
    (fun _ : List ImageGenerationResult => SaveOutcome.otherError)
        [⟨"1", "p", "1:1", 1, [], 0⟩] ≠ SaveOutcome.quotaExceeded ∧
    saveAttempts (fun _ => SaveOutcome.otherError) [⟨"1", "p", "1:1", 1, [], 0⟩] =
      [[⟨"1", "p", "1:1", 1, [], 0⟩]] :=
  ⟨by decide, (saveHistoryWithRetry_spec _ _).2.2.2 (by decide)⟩

theorem updateLastStreaming_concat (ms : List ChatMessage) (c0 x : List Char)
    (src : Option (List String)) :
    updateLastStreaming (ms ++ [⟨ChatRole.model, c0, true, src⟩]) x =
      ms ++ [⟨ChatRole.model, x, true, src⟩] := by
  unfold updateLastStreaming
  rw [List.getLast?_concat, List.dropLast_concat]
  simp

theorem foldl_updateLastStreaming (contents : List (List Char)) (ms : List ChatMessage)
    (c0 : List Char) (src : Option (List String)) :
    ∃ c, contents.foldl updateLastStreaming (ms ++ [⟨ChatRole.model, c0, true, src⟩]) =
      ms ++ [⟨ChatRole.model, c, true, src⟩] := by
  induction contents generalizing c0 with
  | nil => exact ⟨c0, rfl⟩
  | cons x xs ih =>
    rw [List.foldl_cons, updateLastStreaming_concat]
    exact ih x

/-- C8: if the streaming request fails, the catch handler removes the
in-flight placeholder (and any partial content written into it), leaves no
message marked streaming, keeps the user's message, surfaces the error, and
stops loading. -/
theorem failedExchange_spec :
    ∀ (s : ChatState) (text : List Char) (contents : List (List Char)) (errMsg : String),
      (∀ m ∈ s.messages, m.isStreaming = false) →
      (failedExchange s text contents errMsg).messages = s.messages ++ [userMessage text] ∧
      (∀ m ∈ (failedExchange s text contents errMsg).messages, m.isStreaming = false) ∧
      userMessage text ∈ (failedExchange s text contents errMsg).messages ∧
      (failedExchange s text contents errMsg).error = some errMsg ∧
      (failedExchange s text contents errMsg).isLoading = false := by
  intro s text contents errMsg hstream
  have hmsgs : (failedExchange s text contents errMsg).messages =
      s.messages ++ [userMessage text] := by
    unfold failedExchange handleSendError sendSetup
    dsimp only
    rw [List.append_assoc]
    obtain ⟨c, hc⟩ := foldl_updateLastStreaming contents (s.messages ++ [userMessage text]) []
      none
    rw [show s.messages ++ ([userMessage text] ++ [placeholderBotMessage]) =
      (s.messages ++ [userMessage text]) ++ [placeholderBotMessage] from
      (List.append_assoc _ _ _).symm]
    rw [show placeholderBotMessage = (⟨ChatRole.model, [], true, none⟩ : ChatMessage) from rfl]
    rw [hc, List.filter_append]
    rw [List.filter_eq_self.mpr ?_]
    · simp
    · intro a ha
      rcases List.mem_append.mp ha with h1 | h2
      · simp [hstream a h1]
      · rw [List.mem_singleton.mp h2]
        rfl
  refine ⟨hmsgs, ?_, ?_, rfl, rfl⟩
  · intro m hm
    rw [hmsgs] at hm
    rcases List.mem_append.mp hm with h1 | h2
    · exact hstream m h1
    · rw [List.mem_singleton.mp h2]
      rfl
  · rw [hmsgs]
    exact List.mem_append_right _ (by simp)

theorem failedExchange_spec_witness :
    (∀ m ∈ (⟨[], none, false⟩ : ChatState).messages, m.isStreaming = false) ∧
    (failedExchange ⟨[], none, false⟩ [Char.ofNat 104, Char.ofNat 105] [[Char.ofNat 104]]
        "boom").messages = [userMessage [Char.ofNat 104, Char.ofNat 105]] ∧
    (failedExchange ⟨[], none, false⟩ [Char.ofNat 104, Char.ofNat 105] [[Char.ofNat 104]]
        "boom").error = some "boom" :=
  ⟨by simp, ((failedExchange_spec ⟨[], none, false⟩ _ _ _ (by simp)).1), 
    ((failedExchange_spec ⟨[], none, false⟩ _ _ _ (by simp)).2.2.2.1)⟩

/-- C4 counterexample: the claim's schedule (cumulative durations offset by
the clock at session start, i.e. cursor 0) differs from the code's schedule
as soon as a buffer arrives after the cursor: with buffers arriving at
clocks 5 and 10 (durations 1 and 2), the code schedules starts 5 and 10,
not 0 and 1. -/
theorem audio_schedule_claim_false :
    scheduleSched 0 [(5, 1), (10, 2)] ≠ claimedSched 0 [(5, 1), (10, 2)] := by
  decide

theorem scheduleSched_head_ge (c : ℚ) (bs : List (ℚ × ℚ)) :
    ∀ x ∈ (scheduleSched c bs).head?, c ≤ x.1 := by
  cases bs with
  | nil => intro x hx; cases hx
  | cons b rest =>
    obtain ⟨t, d⟩ := b
    intro x hx
    simp only [scheduleSched, Option.mem_def, List.head?_cons, Option.some.injEq] at hx
    rw [← hx]
    exact le_max_left _ _

theorem scheduleSched_no_overlap (bs : List (ℚ × ℚ)) (c : ℚ) :
    List.Chain' (fun a b => a.1 + a.2 ≤ b.1) (scheduleSched c bs) := by
  induction bs generalizing c with
  | nil => exact List.chain'_nil
  | cons b rest ih =>
    obtain ⟨t, d⟩ := b
    refine List.chain'_cons'.mpr ⟨?_, ih _⟩
    intro y hy
    exact scheduleSched_head_ge _ _ y hy

theorem scheduleSched_timely (bs : List (ℚ × ℚ)) (base : ℚ) (h : timelyFrom base bs = true) :
    scheduleSched base bs = claimedSched base bs := by
  induction bs generalizing base with
  | nil => rfl
  | cons b rest ih =>
    obtain ⟨t, d⟩ := b
    simp only [timelyFrom, Bool.and_eq_true, decide_eq_true_eq] at h
    simp only [scheduleSched, claimedSched, max_eq_left h.1]
    rw [ih _ h.2]

/-- C4 amended: scheduled buffers never overlap; and provided every buffer
is scheduled no later than the end of the audio before it, the k-th start
equals the output clock at the first buffer's arrival (not at session
start) plus the cumulative durations of buffers 1..k-1 — back-to-back with
no gap. -/
theorem audio_schedule_amended :
    (∀ (bs : List (ℚ × ℚ)) (c : ℚ),
      List.Chain' (fun a b => a.1 + a.2 ≤ b.1) (scheduleSched c bs)) ∧
    (∀ (bs : List (ℚ × ℚ)) (base : ℚ), timelyFrom base bs = true →
      scheduleSched base bs = claimedSched base bs) ∧
    (∀ (bs : List (ℚ × ℚ)) (t1 d1 : ℚ), 0 ≤ t1 → timelyFrom (t1 + d1) bs = true →
      scheduleSched 0 ((t1, d1) :: bs) = claimedSched t1 ((t1, d1) :: bs)) := by
  refine ⟨fun bs c => scheduleSched_no_overlap bs c, fun bs base h => scheduleSched_timely bs base h, ?_⟩
  intro bs t1 d1 ht1 htimely
  simp only [scheduleSched, claimedSched, max_eq_right ht1]
  rw [scheduleSched_timely bs _ htimely]

theorem audio_schedule_amended_witness :
    (0 : ℚ) ≤ 2 ∧ timelyFrom ((2 : ℚ) + 3) [(5, 1)] = true ∧
    scheduleSched 0 [((2 : ℚ), (3 : ℚ)), (5, 1)] = claimedSched 2 [((2 : ℚ), (3 : ℚ)), (5, 1)] :=
  ⟨by norm_num, by norm_num [timelyFrom], audio_schedule_amended.2.2 [(5, 1)] 2 3 (by norm_num) (by norm_num [timelyFrom])⟩

theorem one_le_chunkSizeOf (d : Nat) : 1 ≤ chunkSizeOf d := le_max_left _ _

theorem revealStep_streamText (s : StreamLoopState) : (revealStep s).streamText = s.streamText := by
  unfold revealStep
  split <;> rfl

theorem revealStep_isComplete (s : StreamLoopState) :
    (revealStep s).isComplete = s.isComplete := by
  unfold revealStep
  split <;> rfl

theorem revealStep_noBacklog (s : StreamLoopState)
    (h : ¬s.displayedText.length < s.streamText.length) : revealStep s = s := by
  unfold revealStep
  rw [if_neg h]

theorem frameStep_streamText (fs : Option (List String)) (s : StreamLoopState) :
    (frameStep fs s).streamText = s.streamText := by
  unfold frameStep
  dsimp only
  split <;> exact revealStep_streamText s

theorem frameStep_isComplete (fs : Option (List String)) (s : StreamLoopState) :
    (frameStep fs s).isComplete = s.isComplete := by
  unfold frameStep
  dsimp only
  split <;> exact revealStep_isComplete s

theorem frameStep_displayedText (fs : Option (List String)) (s : StreamLoopState) :
    (frameStep fs s).displayedText = (revealStep s).displayedText := by
  unfold frameStep
  dsimp only
  split <;> rfl

theorem StreamInv_initial (pm : List ChatMessage) : StreamInv (initialStreamState pm) :=
  ⟨List.prefix_rfl, placeholderBotMessage, List.getLast?_concat _, rfl, rfl, Or.inl rfl⟩

theorem reveal_inv (s : StreamLoopState) (hInv : StreamInv s) :
    StreamInv (revealStep s) ∧ s.displayedText <+: (revealStep s).displayedText := by
  by_cases h : s.displayedText.length < s.streamText.length
  · obtain ⟨hpre, m, hm, hrole, hcont, hdisj⟩ := hInv
    have hstr : m.isStreaming = true := by
      rcases hdisj with h1 | h2
      · exact h1
      · rw [h2.2] at h
        exact absurd h (lt_irrefl _)
    have hreveal : revealStep s =
        { s with
            displayedText := s.streamText.take (s.displayedText.length +
              chunkSizeOf (s.streamText.length - s.displayedText.length))
            messages := updateLastStreaming s.messages (s.streamText.take
              (s.displayedText.length +
                chunkSizeOf (s.streamText.length - s.displayedText.length))) } := by
      unfold revealStep
      rw [if_pos h]
    have hupd : ∀ nc, updateLastStreaming s.messages nc =
        s.messages.dropLast ++ [{ m with content := nc }] := by
      intro nc
      unfold updateLastStreaming
      rw [hm]
      dsimp only
      rw [if_pos ⟨hrole, hstr⟩]
    rw [hreveal]
    refine ⟨⟨⟨s.streamText.drop _, List.take_append_drop _ _⟩,
      { m with content := s.streamText.take (s.displayedText.length +
          chunkSizeOf (s.streamText.length - s.displayedText.length)) }, ?_, hrole, rfl,
      Or.inl hstr⟩, ?_⟩
    · dsimp only
      rw [hupd, List.getLast?_concat]
    · dsimp only
      exact List.prefix_take_iff.mpr ⟨hpre, Nat.le_add_right _ _⟩
  · rw [revealStep_noBacklog s h]
    exact ⟨hInv, List.prefix_rfl⟩

theorem finalize_done (fs : Option (List String)) (s : StreamLoopState) (hInv : StreamInv s)
    (hc : s.isComplete = true) (hd : ¬s.displayedText.length < s.streamText.length) :
    StreamDone fs { s with messages := finalizeMessages s.messages fs } := by
  obtain ⟨hpre, m, hm, hrole, hcont, _⟩ := hInv
  have heq : s.displayedText = s.streamText := hpre.eq_of_length_le (Nat.le_of_not_lt hd)
  refine ⟨heq, hc, { m with isStreaming := false, sources := fs }, ?_, hrole, rfl, ?_, rfl⟩
  · dsimp only
    unfold finalizeMessages
    rw [hm]
    dsimp only
    rw [List.getLast?_concat]
  · dsimp only
    rw [hcont, heq]

theorem done_inv (fs : Option (List String)) (s : StreamLoopState) (h : StreamDone fs s) :
    StreamInv s := by
  obtain ⟨hd, hc, m, hm, hrole, hstr, hcont, hsrc⟩ := h
  exact ⟨by rw [hd], m, hm, hrole, by rw [hcont, hd], Or.inr ⟨hc, hd⟩⟩

theorem frame_inv (fs : Option (List String)) (s : StreamLoopState) (hInv : StreamInv s) :
    StreamInv (frameStep fs s) ∧ s.displayedText <+: (frameStep fs s).displayedText := by
  have hr := reveal_inv s hInv
  unfold frameStep
  dsimp only
  split
  · exact hr
  · next hcond =>
    push_neg at hcond
    have hdone := finalize_done fs (revealStep s) hr.1 (by simpa using hcond.1)
      (by simpa using hcond.2)
    exact ⟨done_inv fs _ hdone, hr.2⟩

theorem streamStep_inv (fs : Option (List String)) (s : StreamLoopState) (e : StreamEvent)
    (hInv : StreamInv s) (hrecv : ∀ c, e = StreamEvent.recv c → s.isComplete = false) :
    StreamInv (streamEventStep fs s e) ∧
    s.displayedText <+: (streamEventStep fs s e).displayedText ∧
    s.streamText <+: (streamEventStep fs s e).streamText := by
  cases e with
  | recv c =>
    obtain ⟨hpre, m, hm, hrole, hcont, hdisj⟩ := hInv
    have hnc : s.isComplete = false := hrecv c rfl
    have hstr : m.isStreaming = true := by
      rcases hdisj with h1 | h2
      · exact h1
      · rw [hnc] at h2
        exact absurd h2.1 (by simp)
    exact ⟨⟨hpre.trans (List.prefix_append _ _), m, hm, hrole, hcont, Or.inl hstr⟩,
      List.prefix_rfl, List.prefix_append _ _⟩
  | frame =>
    have hf := frame_inv fs s hInv
    exact ⟨hf.1, hf.2, by rw [show (streamEventStep fs s StreamEvent.frame).streamText =
      s.streamText from frameStep_streamText fs s]⟩
  | complete =>
    obtain ⟨hpre, m, hm, hrole, hcont, hdisj⟩ := hInv
    refine ⟨⟨hpre, m, hm, hrole, hcont, ?_⟩, List.prefix_rfl, List.prefix_rfl⟩
    rcases hdisj with h1 | h2
    · exact Or.inl h1
    · exact Or.inr ⟨rfl, h2.2⟩

theorem streamStep_isComplete_mono (fs : Option (List String)) (s : StreamLoopState)
    (e : StreamEvent) (h : s.isComplete = true) : (streamEventStep fs s e).isComplete = true := by
  cases e with
  | recv c => exact h
  | frame =>
    rw [show (streamEventStep fs s StreamEvent.frame).isComplete = s.isComplete from
      frameStep_isComplete fs s]
    exact h
  | complete => rfl

theorem runStream_inv (fs : Option (List String)) (es : List StreamEvent)
    (s : StreamLoopState) (hInv : StreamInv s) (hwf : wfTrace s.isComplete es = true) :
    StreamInv (runStream fs s es) ∧
    s.displayedText <+: (runStream fs s es).displayedText ∧
    s.streamText <+: (runStream fs s es).streamText := by
  induction es generalizing s with
  | nil => exact ⟨hInv, List.prefix_rfl, List.prefix_rfl⟩
  | cons e es ih =>
    have hstep : StreamInv (streamEventStep fs s e) ∧
        s.displayedText <+: (streamEventStep fs s e).displayedText ∧
        s.streamText <+: (streamEventStep fs s e).streamText := by
      refine streamStep_inv fs s e hInv ?_
      intro c hc
      subst hc
      simp only [wfTrace, Bool.and_eq_true, Bool.not_eq_true'] at hwf
      exact hwf.1
    have hwf' : wfTrace (streamEventStep fs s e).isComplete es = true := by
      cases e with
      | recv c =>
        simp only [wfTrace, Bool.and_eq_true, Bool.not_eq_true'] at hwf
        exact hwf.2
      | frame =>
        rw [show (streamEventStep fs s StreamEvent.frame).isComplete = s.isComplete from
          frameStep_isComplete fs s]
        exact hwf
      | complete => exact hwf
    have hrest := ih (streamEventStep fs s e) hstep.1 hwf'
    exact ⟨hrest.1, hstep.2.1.trans hrest.2.1, hstep.2.2.trans hrest.2.2⟩

theorem runStream_append (fs : Option (List String)) (s : StreamLoopState)
    (e1 e2 : List StreamEvent) :
    runStream fs s (e1 ++ e2) = runStream fs (runStream fs s e1) e2 := by
  simp [runStream, List.foldl_append]

theorem runStream_isComplete (fs : Option (List String)) (es : List StreamEvent)
    (s : StreamLoopState) :
    (runStream fs s es).isComplete = (s.isComplete || es.any isCompleteEvent) := by
  induction es generalizing s with
  | nil => simp [runStream]
  | cons e es ih =>
    rw [show runStream fs s (e :: es) = runStream fs (streamEventStep fs s e) es from rfl, ih]
    cases e with
    | recv c => rfl
    | frame =>
      rw [show (streamEventStep fs s StreamEvent.frame).isComplete = s.isComplete from
        frameStep_isComplete fs s]
      rfl
    | complete => simp [streamEventStep, isCompleteEvent]

theorem wfTrace_append (a b : List StreamEvent) (d : Bool) (h : wfTrace d (a ++ b) = true) :
    wfTrace d a = true ∧ wfTrace (d || a.any isCompleteEvent) b = true := by
  induction a generalizing d with
  | nil => exact ⟨rfl, by simpa using h⟩
  | cons e a ih =>
    cases e with
    | recv c =>
      simp only [List.cons_append, wfTrace, Bool.and_eq_true, Bool.not_eq_true'] at h ⊢
      have := ih d h.2
      simp only [List.any_cons, isCompleteEvent]
      exact ⟨⟨h.1, this.1⟩, by simpa using this.2⟩
    | frame =>
      simp only [List.cons_append, wfTrace] at h ⊢
      have := ih d h
      simp only [List.any_cons, isCompleteEvent]
      exact ⟨this.1, by simpa using this.2⟩
    | complete =>
      simp only [List.cons_append, wfTrace] at h ⊢
      have := ih true h
      simp only [List.any_cons, isCompleteEvent]
      exact ⟨this.1, by simpa using this.2⟩

theorem frameStep_drained (fs : Option (List String)) (s : StreamLoopState)
    (hc : s.isComplete = true) (hnb : ¬s.displayedText.length < s.streamText.length) :
    frameStep fs s = { s with messages := finalizeMessages s.messages fs } := by
  unfold frameStep
  dsimp only
  rw [revealStep_noBacklog s hnb]
  rw [if_neg]
  intro hcase
  rcases hcase with h1 | h2
  · exact h1 (by simp [hc])
  · exact hnb h2

theorem frame_done_fixed (fs : Option (List String)) (s : StreamLoopState)
    (h : StreamDone fs s) : frameStep fs s = s := by
  obtain ⟨hd, hc, m, hm, hrole, hstr, hcont, hsrc⟩ := h
  have hnb : ¬s.displayedText.length < s.streamText.length := by
    rw [hd]
    exact lt_irrefl _
  rw [frameStep_drained fs s hc hnb]
  have hfin : finalizeMessages s.messages fs = s.messages := by
    unfold finalizeMessages
    rw [hm]
    dsimp only
    have hmeq : ({ m with isStreaming := false, sources := fs } : ChatMessage) = m := by
      cases m
      dsimp only at hstr hsrc ⊢
      rw [hstr, hsrc]
    rw [hmeq]
    exact List.dropLast_append_getLast? m hm
  rw [hfin]

theorem drain_frames (fs : Option (List String)) :
    ∀ (n : Nat) (s : StreamLoopState), StreamInv s → s.isComplete = true →
      s.streamText.length - s.displayedText.length ≤ n →
      StreamDone fs ((frameStep fs)^[n + 1] s) ∧
      ((frameStep fs)^[n + 1] s).streamText = s.streamText := by
  intro n
  induction n with
  | zero =>
    intro s hInv hc hb
    have hnb : ¬s.displayedText.length < s.streamText.length := by omega
    rw [Function.iterate_one, frameStep_drained fs s hc hnb]
    exact ⟨finalize_done fs s hInv hc hnb, rfl⟩
  | succ n ih =>
    intro s hInv hc hb
    have hiter : (frameStep fs)^[n + 1 + 1] s = (frameStep fs)^[n + 1] (frameStep fs s) :=
      Function.iterate_succ_apply _ _ _
    by_cases hnb : s.displayedText.length < s.streamText.length
    · have hf := frame_inv fs s hInv
      have hdisp : (frameStep fs s).displayedText =
          s.streamText.take (s.displayedText.length +
            chunkSizeOf (s.streamText.length - s.displayedText.length)) := by
        rw [frameStep_displayedText]
        unfold revealStep
        rw [if_pos hnb]
      have hlen : (frameStep fs s).streamText.length -
          (frameStep fs s).displayedText.length ≤ n := by
        rw [frameStep_streamText, hdisp, List.length_take]
        have := one_le_chunkSizeOf (s.streamText.length - s.displayedText.length)
        omega
      have hc' : (frameStep fs s).isComplete = true := by
        rw [frameStep_isComplete]
        exact hc
      have hrec := ih (frameStep fs s) hf.1 hc' hlen
      rw [hiter]
      exact ⟨hrec.1, hrec.2.trans (frameStep_streamText fs s)⟩
    · have hdone : StreamDone fs (frameStep fs s) := by
        rw [frameStep_drained fs s hc hnb]
        exact finalize_done fs s hInv hc hnb
      rw [hiter, Function.iterate_fixed (frame_done_fixed fs _ hdone) (n + 1)]
      exact ⟨hdone, frameStep_streamText fs s⟩

/-- C3: during one streaming exchange, the rendered bot-message content is
always the displayed prefix of the final received text; it never decreases
across events; a frame with backlog strictly extends it; and once the remote
call has signalled completion, draining the buffer (one frame per backlog
character plus one) ends in the terminal state: content equal to the full
received text, the message marked non-streaming, sources attached. -/
theorem streaming_reveal_spec :
    ∀ (fs : Option (List String)) (priorMessages : List ChatMessage)
      (e1 e2 : List StreamEvent),
      wfTrace false (e1 ++ e2) = true →
      (∃ m, (runStream fs (initialStreamState priorMessages) e1).messages.getLast? = some m ∧
        m.role = ChatRole.model ∧
        m.content = (runStream fs (initialStreamState priorMessages) e1).displayedText) ∧
      (runStream fs (initialStreamState priorMessages) e1).displayedText <+:
        (runStream fs (initialStreamState priorMessages) (e1 ++ e2)).streamText ∧
      (runStream fs (initialStreamState priorMessages) e1).displayedText <+:
        (runStream fs (initialStreamState priorMessages) (e1 ++ e2)).displayedText ∧
      ((runStream fs (initialStreamState priorMessages) e1).displayedText.length <
          (runStream fs (initialStreamState priorMessages) e1).streamText.length →
        (runStream fs (initialStreamState priorMessages) e1).displayedText.length <
          (frameStep fs (runStream fs (initialStreamState priorMessages) e1)).displayedText.length) ∧
      ((runStream fs (initialStreamState priorMessages) (e1 ++ e2)).isComplete = true →
        StreamDone fs ((frameStep fs)^[(runStream fs (initialStreamState priorMessages)
              (e1 ++ e2)).streamText.length -
            (runStream fs (initialStreamState priorMessages) (e1 ++ e2)).displayedText.length + 1]
          (runStream fs (initialStreamState priorMessages) (e1 ++ e2))) ∧
        ((frameStep fs)^[(runStream fs (initialStreamState priorMessages)
              (e1 ++ e2)).streamText.length -
            (runStream fs (initialStreamState priorMessages) (e1 ++ e2)).displayedText.length + 1]
          (runStream fs (initialStreamState priorMessages) (e1 ++ e2))).streamText =
          (runStream fs (initialStreamState priorMessages) (e1 ++ e2)).streamText) := by
  intro fs pm e1 e2 hwf
  have hwf1 : wfTrace false e1 = true := (wfTrace_append e1 e2 false hwf).1
  have hwf2 : wfTrace (false || e1.any isCompleteEvent) e2 = true :=
    (wfTrace_append e1 e2 false hwf).2
  have hinit : (initialStreamState pm).isComplete = false := rfl
  have h1 := runStream_inv fs e1 (initialStreamState pm) (StreamInv_initial pm)
    (by rw [hinit]; exact hwf1)
  have hwf2' : wfTrace (runStream fs (initialStreamState pm) e1).isComplete e2 = true := by
    rw [runStream_isComplete fs e1 (initialStreamState pm), hinit]
    exact hwf2
  have h2 := runStream_inv fs e2 (runStream fs (initialStreamState pm) e1) h1.1 hwf2'
  rw [← runStream_append fs (initialStreamState pm) e1 e2] at h2
  have hfull := runStream_inv fs (e1 ++ e2) (initialStreamState pm) (StreamInv_initial pm)
    (by rw [hinit]; exact hwf)
  refine ⟨?_, ?_, ?_, ?_, ?_⟩
  · obtain ⟨hpre, m, hm, hrole, hcont, _⟩ := h1.1
    exact ⟨m, hm, hrole, hcont⟩
  · exact (h1.1.1.trans h2.2.2)
  · exact h2.2.1
  · intro hlt
    rw [frameStep_displayedText]
    unfold revealStep
    rw [if_pos hlt]
    dsimp only
    rw [List.length_take]
    have := one_le_chunkSizeOf ((runStream fs (initialStreamState pm) e1).streamText.length -
      (runStream fs (initialStreamState pm) e1).displayedText.length)
    omega
  · intro hcomp
    exact drain_frames fs _ _ hfull.1 hcomp (le_refl _)

theorem streaming_reveal_spec_witness :
    wfTrace false ([StreamEvent.recv [Char.ofNat 97], StreamEvent.complete] ++ []) = true ∧
    ∃ m, (runStream none (initialStreamState [])
        [StreamEvent.recv [Char.ofNat 97], StreamEvent.complete]).messages.getLast? = some m ∧
      m.role = ChatRole.model ∧
      m.content = (runStream none (initialStreamState [])
        [StreamEvent.recv [Char.ofNat 97], StreamEvent.complete]).displayedText :=
  ⟨by decide, (streaming_reveal_spec none []
    [StreamEvent.recv [Char.ofNat 97], StreamEvent.complete] [] (by decide)).1⟩

theorem swapL_cons {α : Type*} (x : α) (xs : List α) (i j : Nat) :
    swapL (x :: xs) (i + 1) (j + 1) = x :: swapL xs i j := by
  unfold swapL
  cases hi : xs[i]? <;> cases hj : xs[j]? <;>
    simp [List.getElem?_cons_succ, hi, hj]

theorem cons_set_perm {α : Type*} (xs : List α) :
    ∀ (m : Nat) (b x : α), xs[m]? = some b → (b :: xs.set m x).Perm (x :: xs) := by
  induction xs with
  | nil =>
    intro m b x h
    simp at h
  | cons y ys ih =>
    intro m b x h
    cases m with
    | zero =>
      rw [List.getElem?_cons_zero, Option.some.injEq] at h
      subst h
      exact List.Perm.swap _ _ _
    | succ m =>
      rw [List.getElem?_cons_succ] at h
      rw [List.set_cons_succ]
      exact ((List.Perm.swap _ _ _).trans ((ih m b x h).cons y)).trans (List.Perm.swap _ _ _)

theorem swapL_perm {α : Type*} : ∀ (l : List α) (i j : Nat), (swapL l i j).Perm l := by
  intro l
  induction l with
  | nil =>
    intro i j
    unfold swapL
    simp
  | cons x xs ih =>
    intro i j
    cases i with
    | zero =>
      cases j with
      | zero =>
        show (swapL (x :: xs) 0 0).Perm (x :: xs)
        unfold swapL
        simp
      | succ j =>
        unfold swapL
        cases hj : xs[j]? with
        | none => simp [List.getElem?_cons_succ, hj]
        | some b =>
          simp only [List.getElem?_cons_zero, List.getElem?_cons_succ, hj,
            List.set_cons_zero, List.set_cons_succ]
          exact cons_set_perm xs j b x hj
    | succ i =>
      cases j with
      | zero =>
        unfold swapL
        cases hi : xs[i]? with
        | none => simp [List.getElem?_cons_succ, hi]
        | some a =>
          simp only [List.getElem?_cons_zero, List.getElem?_cons_succ, hi,
            List.set_cons_zero, List.set_cons_succ]
          exact cons_set_perm xs i a x hi
      | succ j =>
        rw [swapL_cons]
        exact (ih i j).cons x

theorem swapL_length {α : Type*} (l : List α) (i j : Nat) :
    (swapL l i j).length = l.length :=
  (swapL_perm l i j).length_eq

theorem swapL_nodup {α : Type*} (l : List α) (i j : Nat) (h : l.Nodup) :
    (swapL l i j).Nodup := ((swapL_perm l i j).nodup_iff).mpr h

theorem swapL_getElem?_ne {α : Type*} (l : List α) (i j p : Nat) (hpi : p ≠ i) (hpj : p ≠ j) :
    (swapL l i j)[p]? = l[p]? := by
  unfold swapL
  cases hi : l[i]? <;> cases hj : l[j]? <;> try rfl
  rw [List.getElem?_set_ne (Ne.symm hpj), List.getElem?_set_ne (Ne.symm hpi)]

theorem swapL_getElem?_fst {α : Type*} (l : List α) (i j : Nat) (hi : i < l.length)
    (hj : j < l.length) : (swapL l i j)[i]? = l[j]? := by
  unfold swapL
  rw [List.getElem?_eq_getElem hi, List.getElem?_eq_getElem hj]
  by_cases hij : i = j
  · subst hij
    rw [List.getElem?_set_self (by simpa using hi)]
  · rw [List.getElem?_set_ne (Ne.symm hij), List.getElem?_set_self hi]

theorem swapL_getElem?_snd {α : Type*} (l : List α) (i j : Nat) (hi : i < l.length)
    (hj : j < l.length) : (swapL l i j)[j]? = l[i]? := by
  unfold swapL
  rw [List.getElem?_eq_getElem hi, List.getElem?_eq_getElem hj]
  rw [List.getElem?_set_self (by simpa using hj)]

theorem mem_choiceSpace_zero (cs : List Nat) : cs ∈ choiceSpace 0 ↔ cs = [] := by
  simp [choiceSpace]

theorem mem_choiceSpace_succ (cs : List Nat) (i : Nat) :
    cs ∈ choiceSpace (i + 1) ↔
      ∃ j, j < i + 2 ∧ ∃ u, u ∈ choiceSpace i ∧ j :: u = cs := by
  simp [choiceSpace, Finset.mem_biUnion, Finset.mem_image, Finset.mem_range]

theorem fyLoop_getElem?_high {α : Type*} :
    ∀ (cs : List Nat) (i : Nat), cs ∈ choiceSpace i →
      ∀ (arr : List α) (p : Nat), i < p → (fyLoop arr i cs)[p]? = arr[p]? := by
  intro cs
  induction cs with
  | nil =>
    intro i _ arr p _
    cases i <;> rfl
  | cons j cs ih =>
    intro i hmem arr p hip
    cases i with
    | zero =>
      rw [mem_choiceSpace_zero] at hmem
      cases hmem
    | succ i =>
      obtain ⟨j0, hj0, u, hu, hju⟩ := (mem_choiceSpace_succ _ _).mp hmem
      injection hju with hje1 hje2
      subst j0
      subst u
      rw [show fyLoop arr (i + 1) (j :: cs) = fyLoop (swapL arr (i + 1) j) i cs from rfl]
      rw [ih i hu (swapL arr (i + 1) j) p (by omega)]
      exact swapL_getElem?_ne arr (i + 1) j p (by omega) (by omega)

theorem fyLoop_perm {α : Type*} :
    ∀ (cs : List Nat) (arr : List α) (i : Nat), (fyLoop arr i cs).Perm arr := by
  intro cs
  induction cs with
  | nil =>
    intro arr i
    cases i <;> exact List.Perm.refl _
  | cons j cs ih =>
    intro arr i
    cases i with
    | zero => exact List.Perm.refl _
    | succ i =>
      exact (ih (swapL arr (i + 1) j) i).trans (swapL_perm arr (i + 1) j)

theorem choiceSpace_cons_disj (i : Nat) :
    ∀ x ∈ Finset.range (i + 2), ∀ y ∈ Finset.range (i + 2), x ≠ y →
      Disjoint ((choiceSpace i).image fun cs => x :: cs)
        ((choiceSpace i).image fun cs => y :: cs) := by
  intro x _ y _ hxy
  refine Finset.disjoint_left.mpr ?_
  intro cs hcs hcs'
  obtain ⟨u, _, hcu⟩ := Finset.mem_image.mp hcs
  obtain ⟨v, _, hcv⟩ := Finset.mem_image.mp hcs'
  apply hxy
  rw [← hcu] at hcv
  injection hcv with h1 _
  exact h1.symm

theorem card_choiceSpace : ∀ i : Nat, (choiceSpace i).card = (i + 1).factorial := by
  intro i
  induction i with
  | zero => rfl
  | succ i ih =>
    rw [show choiceSpace (i + 1) =
      (Finset.range (i + 2)).biUnion (fun j => (choiceSpace i).image fun cs => j :: cs) from rfl]
    rw [Finset.card_biUnion (choiceSpace_cons_disj i)]
    have hterm : ∀ j ∈ Finset.range (i + 2),
        ((choiceSpace i).image fun cs => j :: cs).card = (i + 1).factorial := by
      intro j _
      rw [Finset.card_image_of_injective _ (List.cons_injective), ih]
    rw [Finset.sum_congr rfl hterm, Finset.sum_const, smul_eq_mul, Finset.card_range]
    exact (Nat.factorial_succ (i + 1)).symm

theorem fy_uniform {α : Type*} [DecidableEq α] :
    ∀ (i : Nat) (arr : List α), arr.Nodup → i < arr.length → ∀ (p k : Nat), p ≤ i → k ≤ i →
      ((choiceSpace i).filter fun cs => (fyLoop arr i cs)[p]? = arr[k]?).card = i.factorial := by
  intro i
  induction i with
  | zero =>
    intro arr hnd hlen p k hp hk
    obtain rfl : p = 0 := Nat.le_zero.mp hp
    obtain rfl : k = 0 := Nat.le_zero.mp hk
    rw [show choiceSpace 0 = {([] : List Nat)} from rfl]
    rw [Finset.filter_singleton, if_pos (by cases arr <;> rfl)]
    rfl
  | succ i ih =>
    intro arr hnd hlen p k hp hk
    have hkmem : k ∈ Finset.range (i + 2) := Finset.mem_range.mpr (by omega)
    rw [show choiceSpace (i + 1) =
      (Finset.range (i + 2)).biUnion (fun j => (choiceSpace i).image fun cs => j :: cs) from rfl]
    rw [Finset.filter_biUnion]
    rw [Finset.card_biUnion (fun x hx y hy hxy =>
      Finset.disjoint_filter_filter (choiceSpace_cons_disj i x hx y hy hxy))]
    have hterm : ∀ j ∈ Finset.range (i + 2),
        (((choiceSpace i).image fun cs => j :: cs).filter
          (fun cs => (fyLoop arr (i + 1) cs)[p]? = arr[k]?)).card =
        ((choiceSpace i).filter
          (fun cs => (fyLoop (swapL arr (i + 1) j) i cs)[p]? = arr[k]?)).card := by
      intro j _
      rw [Finset.filter_image, Finset.card_image_of_injective _ List.cons_injective]
      exact congrArg Finset.card (Finset.filter_congr fun cs _ => Iff.rfl)
    rw [Finset.sum_congr rfl hterm]
    by_cases hpi : p = i + 1
    · subst hpi
      have hval : ∀ j ∈ Finset.range (i + 2),
          ((choiceSpace i).filter
            (fun cs => (fyLoop (swapL arr (i + 1) j) i cs)[i + 1]? = arr[k]?)).card =
          if j = k then (i + 1).factorial else 0 := by
        intro j hj
        have hjlt : j < i + 2 := Finset.mem_range.mp hj
        have hcond : ∀ cs ∈ choiceSpace i,
            ((fyLoop (swapL arr (i + 1) j) i cs)[i + 1]? = arr[k]?) ↔ j = k := by
          intro cs hcs
          rw [fyLoop_getElem?_high cs i hcs (swapL arr (i + 1) j) (i + 1) (Nat.lt_succ_self i)]
          rw [swapL_getElem?_fst arr (i + 1) j hlen (by omega)]
          constructor
          · intro h
            exact List.getElem?_inj (show j < arr.length by omega) hnd h
          · intro h
            rw [h]
        by_cases hjk : j = k
        · rw [if_pos hjk, Finset.filter_true_of_mem (fun cs hcs => (hcond cs hcs).mpr hjk)]
          exact card_choiceSpace i
        · rw [if_neg hjk,
            Finset.filter_false_of_mem (fun cs hcs hP => hjk ((hcond cs hcs).mp hP))]
          exact Finset.card_empty
      rw [Finset.sum_congr rfl hval,
        Finset.sum_ite_eq' (Finset.range (i + 2)) k (fun _ => (i + 1).factorial), if_pos hkmem]
    · have hp2 : p ≤ i := by omega
      have hval : ∀ j ∈ Finset.range (i + 2),
          ((choiceSpace i).filter
            (fun cs => (fyLoop (swapL arr (i + 1) j) i cs)[p]? = arr[k]?)).card =
          if j = k then 0 else i.factorial := by
        intro j hj
        have hjlt : j < i + 2 := Finset.mem_range.mp hj
        have hnd' : (swapL arr (i + 1) j).Nodup := swapL_nodup arr (i + 1) j hnd
        have hlen' : i < (swapL arr (i + 1) j).length := by
          rw [swapL_length]
          omega
        by_cases hjk : j = k
        · subst hjk
          rw [if_pos rfl]
          rw [Finset.filter_false_of_mem, Finset.card_empty]
          intro cs hcs hcond
          have h1 : arr[j]? = (swapL arr (i + 1) j)[i + 1]? :=
            (swapL_getElem?_fst arr (i + 1) j hlen (by omega)).symm
          have h2 : (swapL arr (i + 1) j)[i + 1]? =
              (fyLoop (swapL arr (i + 1) j) i cs)[i + 1]? :=
            (fyLoop_getElem?_high cs i hcs (swapL arr (i + 1) j) (i + 1)
              (Nat.lt_succ_self i)).symm
          rw [h1, h2] at hcond
          have hndr : (fyLoop (swapL arr (i + 1) j) i cs).Nodup :=
            ((fyLoop_perm cs (swapL arr (i + 1) j) i).nodup_iff).mpr hnd'
          have hplen : p < (fyLoop (swapL arr (i + 1) j) i cs).length := by
            rw [(fyLoop_perm cs (swapL arr (i + 1) j) i).length_eq, swapL_length]
            omega
          have := List.getElem?_inj hplen hndr hcond
          omega
        · rw [if_neg hjk]
          rcases Nat.lt_or_ge k (i + 1) with hki | hki
          · have harr : (arr[k]? : Option α) = (swapL arr (i + 1) j)[k]? :=
              (swapL_getElem?_ne arr (i + 1) j k (by omega) (Ne.symm hjk)).symm
            rw [Finset.filter_congr (fun cs _ => by rw [harr])]
            exact ih (swapL arr (i + 1) j) hnd' hlen' p k hp2 (by omega)
          · have hk1 : k = i + 1 := by omega
            have hji : j ≤ i := by omega
            have harr : (arr[k]? : Option α) = (swapL arr (i + 1) j)[j]? := by
              rw [hk1]
              exact (swapL_getElem?_snd arr (i + 1) j hlen (by omega)).symm
            rw [Finset.filter_congr (fun cs _ => by rw [harr])]
            exact ih (swapL arr (i + 1) j) hnd' hlen' p j hp2 hji
      rw [Finset.sum_congr rfl hval]
      rw [Finset.sum_ite, Finset.sum_const_zero, Finset.sum_const, zero_add, smul_eq_mul]
      rw [Finset.filter_ne', Finset.card_erase_of_mem hkmem, Finset.card_range]
      rw [show i + 2 - 1 = i + 1 from rfl, Nat.factorial_succ]

/-- C7: for every input list and every sequence of random draws, the output
of `shuffleArray` is a permutation of the input (same multiset, same
length; the model is pure, matching the source's copy before mutation);
and over the full space of in-range random draws, every element of a
duplicate-free input is equally likely to land at every position — each
(element, position) pair is produced by exactly `(n-1)!` of the `n!` draw
sequences. -/
theorem shuffleArray_spec :
    (∀ {α : Type*} (l : List α) (cs : List Nat),
      (shuffleArray l cs).Perm l ∧ (shuffleArray l cs).length = l.length) ∧
    (∀ {α : Type*} [DecidableEq α] (l : List α), l.Nodup → ∀ p k : Nat,
      p < l.length → k < l.length →
      ((choiceSpace (l.length - 1)).filter
        fun cs => (shuffleArray l cs)[p]? = l[k]?).card = (l.length - 1).factorial) := by
  constructor
  · intro α l cs
    have hperm : (shuffleArray l cs).Perm l := fyLoop_perm cs l (l.length - 1)
    exact ⟨hperm, hperm.length_eq⟩
  · intro α _ l hnd p k hp hk
    have hlen : l.length - 1 < l.length := by omega
    exact fy_uniform (l.length - 1) l hnd hlen p k (by omega) (by omega)

theorem shuffleArray_spec_witness :
    ([0, 1, 2] : List Nat).Nodup ∧
    ((choiceSpace 2).filter
      fun cs => (shuffleArray ([0, 1, 2] : List Nat) cs)[0]? =
        ([0, 1, 2] : List Nat)[1]?).card = Nat.factorial 2 :=
  ⟨by decide, shuffleArray_spec.{0, 0}.2 [0, 1, 2] (by decide) 0 1 (by decide) (by decide)⟩

end LearnMate
